import Mathlib

/-!
Verification of the alias-method discrete distribution sampler
(`discrete-distribution.cc`).

The C++ `double` values are modelled by the type `D`: exact rationals
extended with the IEEE special values NaN, +inf and -inf.  Rounding of
finite values is idealized (finite arithmetic is exact), but the special
values propagate exactly as IEEE-754 prescribes for the operations the
program uses; in particular `0.0 / 0.0 = NaN` and every comparison with
NaN is false.  This captures the observable control flow of the program
on zero-sum weight vectors, where the C++ code divides by a zero sum.

The construction loop of `create_buckets` pops one segment from each of
the two stacks and pushes exactly one back, so the combined stack size
strictly decreases; the Lean embedding `pairLoopF` uses that quantity as
explicit fuel, which keeps the definition structurally recursive (and
hence evaluable by `decide`).  `pairLoop` instantiates the fuel with the
combined size of the two stacks, which is shown to be enough
(`pairLoopF_congr`).  `pairTraceF` is the same recursion instrumented to
record the loop state at every guard check; it is used to state the
invariants of the construction loop.

The `cout << "Here"` statement in the final drain loop is modelled by
the `output` field of the distribution: one `"Here"` line per drained
light segment.
-/

/-- Model of a C++ `double`: an exact rational or an IEEE special value. -/
inductive D where
  | nan : D
  | pinf : D
  | ninf : D
  | val (q : ℚ) : D
deriving DecidableEq, Repr

/-- IEEE `<` on doubles: any comparison involving NaN is false. -/
def dlt : D → D → Bool
  | D.nan, _ => false
  | _, D.nan => false
  | D.ninf, D.ninf => false
  | D.ninf, _ => true
  | _, D.ninf => false
  | D.pinf, _ => false
  | _, D.pinf => true
  | D.val a, D.val b => a < b

/-- IEEE addition on doubles (finite arithmetic idealized as exact). -/
def dadd : D → D → D
  | D.nan, _ => D.nan
  | _, D.nan => D.nan
  | D.pinf, D.ninf => D.nan
  | D.ninf, D.pinf => D.nan
  | D.pinf, _ => D.pinf
  | _, D.pinf => D.pinf
  | D.ninf, _ => D.ninf
  | _, D.ninf => D.ninf
  | D.val a, D.val b => D.val (a + b)

/-- IEEE negation on doubles. -/
def dneg : D → D
  | D.nan => D.nan
  | D.pinf => D.ninf
  | D.ninf => D.pinf
  | D.val a => D.val (-a)

/-- IEEE subtraction on doubles. -/
def dsub (x y : D) : D := dadd x (dneg y)

/-- IEEE division of two finite doubles, as used by `normalize_weights`:
`0/0` is NaN and `x/0` for `x ≠ 0` is a signed infinity. -/
def ddiv (x y : ℚ) : D :=
  if y = 0 then
    if x = 0 then D.nan else if 0 < x then D.pinf else D.ninf
  else D.val (x / y)

/-- `Segment`: `std::pair<double, size_t>` — a probability mass and an
outcome index. -/
abbrev Segment := D × ℕ

/-- `Bucket`: `std::tuple<result_type, result_type, double>` — two outcome
indices and a threshold. -/
abbrev Bucket := ℕ × ℕ × D

/-- `fast_discrete_distribution::normalize_weights`: sums the weights with
`std::accumulate` and divides each weight by the sum.  There is no
validation of the weights anywhere in the function. -/
def normalize_weights (weights : List ℚ) : List D :=
  weights.map (fun w => ddiv w weights.sum)

/-- The index-splitting loop of `create_buckets`: pushes `(p[i], i)` onto
the `small` stack if `p[i] < thr` (with `thr = 1.0/N`), else onto the
`large` stack.  Stacks are lists with the top at the head. -/
def splitGo (thr : D) : ℕ → List D → List Segment → List Segment →
    List Segment × List Segment
  | _, [], s, l => (s, l)
  | i, p :: ps, s, l =>
    if dlt p thr then splitGo thr (i + 1) ps ((p, i) :: s) l
    else splitGo thr (i + 1) ps s ((p, i) :: l)

/-- The initial `small` and `large` stacks built from the probability
vector, as in the first loop of `create_buckets`. -/
def initStacks (ps : List D) : List Segment × List Segment :=
  splitGo (D.val (1 / (ps.length : ℚ))) 0 ps [] []

/-- State of the main construction loop: the counter `i`, the two stacks
and the buckets emitted so far. -/
structure LoopState where
  i : ℕ
  small : List Segment
  large : List Segment
  buckets : List Bucket
deriving DecidableEq, Repr

/-- The main pairing loop of `create_buckets`, with explicit fuel.  Each
iteration pops one segment from each stack, emits one bucket and pushes
the left-over segment back, so the combined stack size strictly
decreases; the fuel is instantiated with that quantity in `pairLoop` and
is never exhausted (`pairLoopF_congr`). -/
def pairLoopF (N : ℕ) : ℕ → ℕ → List Segment → List Segment →
    List Bucket → LoopState
  | fuel + 1, i, s :: ss, l :: ls, bs =>
    let c : D := D.val ((i : ℚ) / (N : ℚ))
    let left_over : D := dsub (dadd s.1 l.1) c
    if dlt left_over (D.val (1 / (N : ℚ))) then
      pairLoopF N fuel (i + 1) ((left_over, l.2) :: ss) ls
        (bs ++ [(s.2, l.2, dadd s.1 c)])
    else
      pairLoopF N fuel (i + 1) ss ((left_over, l.2) :: ls)
        (bs ++ [(s.2, l.2, dadd s.1 c)])
  | _, i, ss, ls, bs => ⟨i, ss, ls, bs⟩

/-- The main pairing loop of `create_buckets`:
`while (!small.empty() && !large.empty()) { ... }`. -/
def pairLoop (N i : ℕ) (small large : List Segment)
    (buckets : List Bucket) : LoopState :=
  pairLoopF N (small.length + large.length) i small large buckets

/-- The pairing loop instrumented to record the loop state at every
check of the loop guard (including the final state). -/
def pairTraceF (N : ℕ) : ℕ → ℕ → List Segment → List Segment →
    List Bucket → List LoopState
  | fuel + 1, i, s :: ss, l :: ls, bs =>
    let c : D := D.val ((i : ℚ) / (N : ℚ))
    let left_over : D := dsub (dadd s.1 l.1) c
    (⟨i, s :: ss, l :: ls, bs⟩ : LoopState) ::
      (if dlt left_over (D.val (1 / (N : ℚ))) then
        pairTraceF N fuel (i + 1) ((left_over, l.2) :: ss) ls
          (bs ++ [(s.2, l.2, dadd s.1 c)])
      else
        pairTraceF N fuel (i + 1) ss ((left_over, l.2) :: ls)
          (bs ++ [(s.2, l.2, dadd s.1 c)]))
  | _, i, ss, ls, bs => [⟨i, ss, ls, bs⟩]

/-- The recorded states of the pairing loop, fuel instantiated as in
`pairLoop`. -/
def pairTrace (N i : ℕ) (small large : List Segment)
    (buckets : List Bucket) : List LoopState :=
  pairTraceF N (small.length + large.length) i small large buckets

/-- `fast_discrete_distribution::create_buckets`.  Returns the bucket
vector together with the lines printed to `cout` (one `"Here"` per
segment drained from the leftover `small` stack). -/
def create_buckets (ps : List D) : List Bucket × List String :=
  if ps.length = 0 then ([(0, 0, D.val 0)], [])
  else
    let st := pairLoop ps.length 0 (initStacks ps).1 (initStacks ps).2 []
    (st.buckets ++ st.large.map (fun l => (l.2, l.2, D.val 0))
        ++ st.small.map (fun s => (s.2, s.2, D.val 0)),
      st.small.map (fun _ => "Here"))

/-- The state of a `fast_discrete_distribution` object after
construction: the stored probabilities, the bucket table, and the lines
the constructor printed to `cout`. -/
structure fast_discrete_distribution where
  probabilities : List D
  buckets : List Bucket
  output : List String
deriving DecidableEq, Repr

/-- The constructor `fast_discrete_distribution(weights)`: normalizes
the weights and builds the buckets. -/
def build (weights : List ℚ) : fast_discrete_distribution :=
  { probabilities := normalize_weights weights
    buckets := (create_buckets (normalize_weights weights)).1
    output := (create_buckets (normalize_weights weights)).2 }

/-- The bucket index computed by `operator()`:
`floor(buckets_.size() * number)`, clamped to `size - 1` when it reaches
the size. -/
def sampleIndex (d : fast_discrete_distribution) (u : ℚ) : ℕ :=
  let m := d.buckets.length
  let index := (Int.floor ((m : ℚ) * u)).toNat
  if index ≥ m then m - 1 else index

/-- The body of `operator()` after the uniform draw `u` has been made:
look up the bucket and return `outcomeA` if `u < threshold`, else
`outcomeB`. -/
def sample (d : fast_discrete_distribution) (u : ℚ) : ℕ :=
  let b := d.buckets.getD (sampleIndex d u) (0, 0, D.val 0)
  if dlt (D.val u) b.2.2 then b.1 else b.2.1

/-- One call of `operator()` as a state transformer on the distribution
object: the method body reads `buckets_` and writes no member, so the
call returns the result together with the unchanged object. -/
def sampleCall (d : fast_discrete_distribution) (u : ℚ) :
    ℕ × fast_discrete_distribution :=
  (sample d u, d)

/-- Left-to-right IEEE summation of a list of doubles, used to state the
spec's property `sum(probabilities(build(w))) == 1`. -/
def sumProbabilities (l : List D) : D := l.foldl dadd (D.val 0)

/-! ### Basic equations of the pairing loop -/

theorem pairLoopF_zero (N i : ℕ) (s l : List Segment) (bs : List Bucket) :
    pairLoopF N 0 i s l bs = ⟨i, s, l, bs⟩ := by
  cases s <;> cases l <;> rfl

theorem pairLoopF_nil_small (N f i : ℕ) (l : List Segment)
    (bs : List Bucket) : pairLoopF N f i [] l bs = ⟨i, [], l, bs⟩ := by
  cases f <;> cases l <;> rfl

theorem pairLoopF_nil_large (N f i : ℕ) (s : List Segment)
    (bs : List Bucket) : pairLoopF N f i s [] bs = ⟨i, s, [], bs⟩ := by
  cases f <;> cases s <;> rfl

theorem pairLoopF_succ_cons (N f i : ℕ) (s l : Segment)
    (ss ls : List Segment) (bs : List Bucket) :
    pairLoopF N (f + 1) i (s :: ss) (l :: ls) bs =
      (if dlt (dsub (dadd s.1 l.1) (D.val ((i : ℚ) / (N : ℚ))))
          (D.val (1 / (N : ℚ))) then
        pairLoopF N f (i + 1)
          ((dsub (dadd s.1 l.1) (D.val ((i : ℚ) / (N : ℚ))), l.2) :: ss) ls
          (bs ++ [(s.2, l.2, dadd s.1 (D.val ((i : ℚ) / (N : ℚ))))])
      else
        pairLoopF N f (i + 1) ss
          ((dsub (dadd s.1 l.1) (D.val ((i : ℚ) / (N : ℚ))), l.2) :: ls)
          (bs ++ [(s.2, l.2, dadd s.1 (D.val ((i : ℚ) / (N : ℚ))))])) := rfl

/-- The fuel of `pairLoopF` is irrelevant as soon as it is at least the
combined size of the two stacks. -/
theorem pairLoopF_congr (N : ℕ) :
    ∀ f g i (s l : List Segment) (bs : List Bucket),
      s.length + l.length ≤ f → s.length + l.length ≤ g →
      pairLoopF N f i s l bs = pairLoopF N g i s l bs := by
  intro f
  induction f with
  | zero =>
    intro g i s l bs hf _
    have hs : s = [] := List.length_eq_zero.mp (by omega)
    subst hs
    rw [pairLoopF_nil_small, pairLoopF_nil_small]
  | succ f ih =>
    intro g i s l bs hf hg
    match s, l with
    | [], l => rw [pairLoopF_nil_small, pairLoopF_nil_small]
    | s :: ss, [] => rw [pairLoopF_nil_large, pairLoopF_nil_large]
    | s :: ss, l :: ls =>
      match g, hg with
      | g + 1, hg =>
        rw [pairLoopF_succ_cons, pairLoopF_succ_cons]
        simp only [List.length_cons] at hf hg
        split
        · exact ih g (i + 1) _ ls _ (by simp; omega) (by simp; omega)
        · exact ih g (i + 1) ss _ _ (by simp; omega) (by simp; omega)

/-- The step taken by the pairing loop when both stacks are non-empty:
pop `s` and `l`, emit the bucket
`(s.index, l.index, s.probability + i/N)`, compute
`left_over = s.probability + l.probability - i/N` and push it back onto
`small` if `left_over < 1/N`, onto `large` otherwise. -/
theorem pairLoop_cons (N i : ℕ) (s l : Segment) (ss ls : List Segment)
    (bs : List Bucket) :
    pairLoop N i (s :: ss) (l :: ls) bs =
      (if dlt (dsub (dadd s.1 l.1) (D.val ((i : ℚ) / (N : ℚ))))
          (D.val (1 / (N : ℚ))) then
        pairLoop N (i + 1)
          ((dsub (dadd s.1 l.1) (D.val ((i : ℚ) / (N : ℚ))), l.2) :: ss) ls
          (bs ++ [(s.2, l.2, dadd s.1 (D.val ((i : ℚ) / (N : ℚ))))])
      else
        pairLoop N (i + 1) ss
          ((dsub (dadd s.1 l.1) (D.val ((i : ℚ) / (N : ℚ))), l.2) :: ls)
          (bs ++ [(s.2, l.2, dadd s.1 (D.val ((i : ℚ) / (N : ℚ))))])) := by
  have h : (s :: ss).length + (l :: ls).length = ss.length + ls.length + 1 + 1 := by
    simp only [List.length_cons]; omega
  rw [pairLoop, h, pairLoopF_succ_cons]
  split
  · exact pairLoopF_congr N _ _ _ _ _ _ (by simp only [List.length_cons]; omega)
      (by simp only [pairLoop, List.length_cons]; omega)
  · exact pairLoopF_congr N _ _ _ _ _ _ (by simp only [List.length_cons]; omega)
      (by simp only [pairLoop, List.length_cons]; omega)

/-! ### Counting and bound invariants of the construction -/

/-- Each iteration of the pairing loop trades one popped segment pair for
one pushed segment and one emitted bucket, so the combined number of
segments and buckets is invariant. -/
theorem pairLoopF_count (N : ℕ) :
    ∀ f i (s l : List Segment) (bs : List Bucket),
      (pairLoopF N f i s l bs).small.length
        + (pairLoopF N f i s l bs).large.length
        + (pairLoopF N f i s l bs).buckets.length
      = s.length + l.length + bs.length := by
  intro f
  induction f with
  | zero => intro i s l bs; rw [pairLoopF_zero]
  | succ f ih =>
    intro i s l bs
    match s, l with
    | [], l => rw [pairLoopF_nil_small]
    | s :: ss, [] => rw [pairLoopF_nil_large]
    | s :: ss, l :: ls =>
      rw [pairLoopF_succ_cons]
      split
      · rw [ih]; simp only [List.length_cons, List.length_append,
          List.length_cons, List.length_nil]; omega
      · rw [ih]; simp only [List.length_cons, List.length_append,
          List.length_cons, List.length_nil]; omega

/-- All outcome indices appearing in the stacks and the emitted buckets
stay below any bound that dominates the initial state: the loop only
reuses indices of popped segments. -/
theorem pairLoopF_bound (N M : ℕ) :
    ∀ f i (s l : List Segment) (bs : List Bucket),
      (∀ x ∈ s, x.2 < M) → (∀ x ∈ l, x.2 < M) →
      (∀ b ∈ bs, b.1 < M ∧ b.2.1 < M) →
      (∀ x ∈ (pairLoopF N f i s l bs).small, x.2 < M) ∧
      (∀ x ∈ (pairLoopF N f i s l bs).large, x.2 < M) ∧
      (∀ b ∈ (pairLoopF N f i s l bs).buckets, b.1 < M ∧ b.2.1 < M) := by
  intro f
  induction f with
  | zero =>
    intro i s l bs hs hl hb
    rw [pairLoopF_zero]
    exact ⟨hs, hl, hb⟩
  | succ f ih =>
    intro i s l bs hs hl hb
    match s, l with
    | [], l => rw [pairLoopF_nil_small]; exact ⟨hs, hl, hb⟩
    | s :: ss, [] => rw [pairLoopF_nil_large]; exact ⟨hs, hl, hb⟩
    | s :: ss, l :: ls =>
      rw [pairLoopF_succ_cons]
      have hsh := hs s (List.mem_cons_self s ss)
      have hlh := hl l (List.mem_cons_self l ls)
      have hss : ∀ x ∈ ss, x.2 < M := fun x hx => hs x (List.mem_cons_of_mem s hx)
      have hls : ∀ x ∈ ls, x.2 < M := fun x hx => hl x (List.mem_cons_of_mem l hx)
      have hbb : ∀ b ∈ bs ++ [(s.2, l.2, dadd s.1 (D.val ((i : ℚ) / (N : ℚ))))],
          b.1 < M ∧ b.2.1 < M := by
        intro b hbmem
        rcases List.mem_append.mp hbmem with h | h
        · exact hb b h
        · simp only [List.mem_singleton] at h
          subst h
          exact ⟨hsh, hlh⟩
      split
      · exact ih (i + 1) _ ls _ (by
          intro x hx
          rcases List.mem_cons.mp hx with h | h
          · subst h; exact hlh
          · exact hss x h) hls hbb
      · exact ih (i + 1) ss _ _ hss (by
          intro x hx
          rcases List.mem_cons.mp hx with h | h
          · subst h; exact hlh
          · exact hls x h) hbb

/-- The split loop pushes one segment per probability, so the two stacks
together receive exactly one segment per outcome. -/
theorem splitGo_count (thr : D) :
    ∀ (ps : List D) (i : ℕ) (s l : List Segment),
      (splitGo thr i ps s l).1.length + (splitGo thr i ps s l).2.length
        = ps.length + s.length + l.length := by
  intro ps
  induction ps with
  | nil => intro i s l; simp [splitGo]
  | cons p ps ih =>
    intro i s l
    rw [splitGo]
    split
    · rw [ih]; simp only [List.length_cons]; omega
    · rw [ih]; simp only [List.length_cons]; omega

/-- The split loop assigns each pushed segment an index below
`i + ps.length`, so all indices stay below any bound dominating the
whole vector. -/
theorem splitGo_bound (thr : D) (M : ℕ) :
    ∀ (ps : List D) (i : ℕ) (s l : List Segment),
      i + ps.length ≤ M →
      (∀ x ∈ s, x.2 < M) → (∀ x ∈ l, x.2 < M) →
      (∀ x ∈ (splitGo thr i ps s l).1, x.2 < M) ∧
      (∀ x ∈ (splitGo thr i ps s l).2, x.2 < M) := by
  intro ps
  induction ps with
  | nil => intro i s l _ hs hl; exact ⟨hs, hl⟩
  | cons p ps ih =>
    intro i s l hM hs hl
    have hi : i < M := by simp only [List.length_cons] at hM; omega
    rw [splitGo]
    split
    · exact ih (i + 1) _ l (by simp only [List.length_cons] at hM; omega)
        (by
          intro x hx
          rcases List.mem_cons.mp hx with h | h
          · subst h; exact hi
          · exact hs x h) hl
    · exact ih (i + 1) s _ (by simp only [List.length_cons] at hM; omega)
        hs (by
          intro x hx
          rcases List.mem_cons.mp hx with h | h
          · subst h; exact hi
          · exact hl x h)

/-- For a non-empty probability vector, `create_buckets` emits exactly
one bucket per outcome. -/
theorem create_buckets_length (ps : List D) (h : ps ≠ []) :
    (create_buckets ps).1.length = ps.length := by
  have hN : ps.length ≠ 0 := by
    intro h0
    exact h (List.length_eq_zero.mp h0)
  have hsplit := splitGo_count (D.val (1 / (ps.length : ℚ))) ps 0 [] []
  have hcount := pairLoopF_count ps.length
    ((initStacks ps).1.length + (initStacks ps).2.length) 0
    (initStacks ps).1 (initStacks ps).2 []
  simp only [create_buckets, if_neg hN, pairLoop, List.length_append,
    List.length_map]
  simp only [pairLoop] at hcount
  simp only [initStacks] at hcount ⊢
  simp only [List.length_nil] at hsplit hcount
  omega

/-- For a non-empty probability vector, every bucket emitted by
`create_buckets` carries two outcome indices below the number of
outcomes. -/
theorem create_buckets_bound (ps : List D) (h : ps ≠ []) :
    ∀ b ∈ (create_buckets ps).1, b.1 < ps.length ∧ b.2.1 < ps.length := by
  have hN : ps.length ≠ 0 := by
    intro h0
    exact h (List.length_eq_zero.mp h0)
  have hsplit := splitGo_bound (D.val (1 / (ps.length : ℚ))) ps.length ps 0 [] []
    (by omega) (by intro x hx; cases hx) (by intro x hx; cases hx)
  have hloop := pairLoopF_bound ps.length ps.length
    ((initStacks ps).1.length + (initStacks ps).2.length) 0
    (initStacks ps).1 (initStacks ps).2 []
    (by intro x hx; exact hsplit.1 x hx)
    (by intro x hx; exact hsplit.2 x hx)
    (by intro b hb; cases hb)
  simp only [pairLoop] at hloop ⊢
  intro b hb
  simp only [create_buckets, if_neg hN, pairLoop, List.mem_append,
    List.mem_map] at hb
  rcases hb with (hb | ⟨x, hx, hxb⟩) | ⟨x, hx, hxb⟩
  · exact hloop.2.2 b hb
  · subst hxb
    exact ⟨hloop.2.1 x hx, hloop.2.1 x hx⟩
  · subst hxb
    exact ⟨hloop.1 x hx, hloop.1 x hx⟩

/-- The probability vector has one entry per weight. -/
theorem normalize_weights_length (w : List ℚ) :
    (normalize_weights w).length = w.length := by
  simp [normalize_weights]

/-! ### The instrumented trace of the pairing loop -/

theorem pairTraceF_zero (N i : ℕ) (s l : List Segment) (bs : List Bucket) :
    pairTraceF N 0 i s l bs = [⟨i, s, l, bs⟩] := by
  cases s <;> cases l <;> rfl

theorem pairTraceF_nil_small (N f i : ℕ) (l : List Segment)
    (bs : List Bucket) : pairTraceF N f i [] l bs = [⟨i, [], l, bs⟩] := by
  cases f <;> cases l <;> rfl

theorem pairTraceF_nil_large (N f i : ℕ) (s : List Segment)
    (bs : List Bucket) : pairTraceF N f i s [] bs = [⟨i, s, [], bs⟩] := by
  cases f <;> cases s <;> rfl

theorem pairTraceF_succ_cons (N f i : ℕ) (s l : Segment)
    (ss ls : List Segment) (bs : List Bucket) :
    pairTraceF N (f + 1) i (s :: ss) (l :: ls) bs =
      (⟨i, s :: ss, l :: ls, bs⟩ : LoopState) ::
        (if dlt (dsub (dadd s.1 l.1) (D.val ((i : ℚ) / (N : ℚ))))
            (D.val (1 / (N : ℚ))) then
          pairTraceF N f (i + 1)
            ((dsub (dadd s.1 l.1) (D.val ((i : ℚ) / (N : ℚ))), l.2) :: ss) ls
            (bs ++ [(s.2, l.2, dadd s.1 (D.val ((i : ℚ) / (N : ℚ))))])
        else
          pairTraceF N f (i + 1) ss
            ((dsub (dadd s.1 l.1) (D.val ((i : ℚ) / (N : ℚ))), l.2) :: ls)
            (bs ++ [(s.2, l.2, dadd s.1 (D.val ((i : ℚ) / (N : ℚ))))])) := rfl

/-- The first recorded state of the trace is the state the loop was
entered with. -/
theorem pairTraceF_head (N f i : ℕ) (s l : List Segment)
    (bs : List Bucket) :
    (pairTraceF N f i s l bs).head? = some ⟨i, s, l, bs⟩ := by
  match f, s, l with
  | 0, s, l => rw [pairTraceF_zero]; rfl
  | f + 1, [], l => rw [pairTraceF_nil_small]; rfl
  | f + 1, s :: ss, [] => rw [pairTraceF_nil_large]; rfl
  | f + 1, s :: ss, l :: ls => rw [pairTraceF_succ_cons]; rfl

/-- The trace is never empty. -/
theorem pairTraceF_ne_nil (N f i : ℕ) (s l : List Segment)
    (bs : List Bucket) : pairTraceF N f i s l bs ≠ [] := by
  intro hcon
  have := pairTraceF_head N f i s l bs
  rw [hcon] at this
  cases this

/-- At every recorded state, the combined size of the two stacks never
exceeds the combined size at entry. -/
theorem pairTraceF_size_le (N : ℕ) :
    ∀ f i (s l : List Segment) (bs : List Bucket),
      ∀ st ∈ pairTraceF N f i s l bs,
        st.small.length + st.large.length ≤ s.length + l.length := by
  intro f
  induction f with
  | zero =>
    intro i s l bs st hst
    rw [pairTraceF_zero] at hst
    simp only [List.mem_singleton] at hst
    subst hst
    exact le_refl _
  | succ f ih =>
    intro i s l bs st hst
    match s, l with
    | [], l =>
      rw [pairTraceF_nil_small] at hst
      simp only [List.mem_singleton] at hst
      subst hst
      exact le_refl _
    | s :: ss, [] =>
      rw [pairTraceF_nil_large] at hst
      simp only [List.mem_singleton] at hst
      subst hst
      exact le_refl _
    | s :: ss, l :: ls =>
      rw [pairTraceF_succ_cons] at hst
      rcases List.mem_cons.mp hst with h | h
      · subst h
        exact le_refl _
      · simp only [List.length_cons]
        rcases em (dlt (dsub (dadd s.1 l.1) (D.val ((i : ℚ) / (N : ℚ))))
            (D.val (1 / (N : ℚ))) = true) with hc | hc
        · rw [if_pos hc] at h
          have := ih (i + 1) _ ls _ st h
          simp only [List.length_cons] at this
          omega
        · rw [if_neg hc] at h
          have := ih (i + 1) ss _ _ st h
          simp only [List.length_cons] at this
          omega

/-- Consecutive recorded states of the pairing loop: each iteration pops
two segments and pushes one, so the combined stack size strictly
decreases by exactly one. -/
theorem pairTraceF_chain (N : ℕ) :
    ∀ f i (s l : List Segment) (bs : List Bucket),
      List.Chain' (fun a b : LoopState =>
          a.small.length + a.large.length
            = b.small.length + b.large.length + 1)
        (pairTraceF N f i s l bs) := by
  intro f
  induction f with
  | zero =>
    intro i s l bs
    rw [pairTraceF_zero]
    exact List.chain'_singleton _
  | succ f ih =>
    intro i s l bs
    match s, l with
    | [], l => rw [pairTraceF_nil_small]; exact List.chain'_singleton _
    | s :: ss, [] => rw [pairTraceF_nil_large]; exact List.chain'_singleton _
    | s :: ss, l :: ls =>
      rw [pairTraceF_succ_cons]
      rcases em (dlt (dsub (dadd s.1 l.1) (D.val ((i : ℚ) / (N : ℚ))))
          (D.val (1 / (N : ℚ))) = true) with hc | hc
      · rw [if_pos hc]
        refine List.chain'_cons'.mpr ⟨?_, ih (i + 1) _ ls _⟩
        intro b hb
        rw [pairTraceF_head] at hb
        cases hb
        simp only [List.length_cons]
        omega
      · rw [if_neg hc]
        refine List.chain'_cons'.mpr ⟨?_, ih (i + 1) ss _ _⟩
        intro b hb
        rw [pairTraceF_head] at hb
        cases hb
        simp only [List.length_cons]
        omega

/-- At every recorded state the loop counter `i` exceeds the entry
counter by exactly the number of buckets emitted since entry: `i` is the
0-based count of emitted buckets when the loop starts at `i = 0` with no
buckets. -/
theorem pairTraceF_counter (N : ℕ) :
    ∀ f i (s l : List Segment) (bs : List Bucket),
      ∀ st ∈ pairTraceF N f i s l bs,
        st.i + bs.length = st.buckets.length + i := by
  intro f
  induction f with
  | zero =>
    intro i s l bs st hst
    rw [pairTraceF_zero] at hst
    simp only [List.mem_singleton] at hst
    subst hst
    exact Nat.add_comm i bs.length
  | succ f ih =>
    intro i s l bs st hst
    match s, l with
    | [], l =>
      rw [pairTraceF_nil_small] at hst
      simp only [List.mem_singleton] at hst
      subst hst
      exact Nat.add_comm i bs.length
    | s :: ss, [] =>
      rw [pairTraceF_nil_large] at hst
      simp only [List.mem_singleton] at hst
      subst hst
      exact Nat.add_comm i bs.length
    | s :: ss, l :: ls =>
      rw [pairTraceF_succ_cons] at hst
      rcases List.mem_cons.mp hst with h | h
      · subst h
        exact Nat.add_comm i bs.length
      · rcases em (dlt (dsub (dadd s.1 l.1) (D.val ((i : ℚ) / (N : ℚ))))
            (D.val (1 / (N : ℚ))) = true) with hc | hc
        · rw [if_pos hc] at h
          have := ih (i + 1) _ ls _ st h
          simp only [List.length_append, List.length_cons,
            List.length_nil] at this
          omega
        · rw [if_neg hc] at h
          have := ih (i + 1) ss _ _ st h
          simp only [List.length_append, List.length_cons,
            List.length_nil] at this
          omega

/-- The trace ends with the final state computed by the pairing loop. -/
theorem pairTraceF_last (N : ℕ) :
    ∀ f i (s l : List Segment) (bs : List Bucket),
      ∃ pre, pairTraceF N f i s l bs = pre ++ [pairLoopF N f i s l bs] := by
  intro f
  induction f with
  | zero =>
    intro i s l bs
    exact ⟨[], by rw [pairTraceF_zero, pairLoopF_zero]; rfl⟩
  | succ f ih =>
    intro i s l bs
    match s, l with
    | [], l =>
      exact ⟨[], by rw [pairTraceF_nil_small, pairLoopF_nil_small]; rfl⟩
    | s :: ss, [] =>
      exact ⟨[], by rw [pairTraceF_nil_large, pairLoopF_nil_large]; rfl⟩
    | s :: ss, l :: ls =>
      rw [pairTraceF_succ_cons, pairLoopF_succ_cons]
      rcases em (dlt (dsub (dadd s.1 l.1) (D.val ((i : ℚ) / (N : ℚ))))
          (D.val (1 / (N : ℚ))) = true) with hc | hc
      · rw [if_pos hc, if_pos hc]
        obtain ⟨pre, hpre⟩ := ih (i + 1)
          ((dsub (dadd s.1 l.1) (D.val ((i : ℚ) / (N : ℚ))), l.2) :: ss) ls
          (bs ++ [(s.2, l.2, dadd s.1 (D.val ((i : ℚ) / (N : ℚ))))])
        exact ⟨_ :: pre, by rw [hpre]; rfl⟩
      · rw [if_neg hc, if_neg hc]
        obtain ⟨pre, hpre⟩ := ih (i + 1) ss
          ((dsub (dadd s.1 l.1) (D.val ((i : ℚ) / (N : ℚ))), l.2) :: ls)
          (bs ++ [(s.2, l.2, dadd s.1 (D.val ((i : ℚ) / (N : ℚ))))])
        exact ⟨_ :: pre, by rw [hpre]; rfl⟩

/-! ### Arithmetic helpers for finite values -/

/-- Folding IEEE addition over finite values computes the exact rational
sum. -/
theorem foldl_dadd_vals :
    ∀ (qs : List ℚ) (a : ℚ),
      (qs.map D.val).foldl dadd (D.val a) = D.val (a + qs.sum) := by
  intro qs
  induction qs with
  | nil => intro a; simp
  | cons q qs ih =>
    intro a
    simp only [List.map_cons, List.foldl_cons, List.sum_cons]
    show (qs.map D.val).foldl dadd (D.val (a + q)) = _
    rw [ih]
    ring_nf

/-- Distributing a division over a list sum. -/
theorem sum_map_div :
    ∀ (w : List ℚ) (s : ℚ), (w.map (fun x => x / s)).sum = w.sum / s := by
  intro w s
  induction w with
  | nil => simp
  | cons x w ih =>
    simp only [List.map_cons, List.sum_cons, ih, add_div]

/-- When the weight sum is nonzero, every normalized entry is the finite
quotient of the weight by the sum. -/
theorem normalize_weights_of_sum_ne_zero (w : List ℚ) (hs : w.sum ≠ 0) :
    normalize_weights w = w.map (fun x => D.val (x / w.sum)) := by
  simp [normalize_weights, ddiv, hs]

/-! ### Claims -/

/-- C1: the claim says that a zero-sum weight vector with `n > 0` makes
construction fail with `InvalidWeights` before any bucket is created and
that NaN probabilities are never produced.  The code has no validation
at all: on `[0, 0, 0]` it divides each weight by the zero sum, stores
three NaN probabilities, classifies them all as heavy (the comparison
`NaN < 1/N` is false) and builds a complete three-bucket table. -/
theorem zero_sum_silently_builds_nan_table :
    normalize_weights [0, 0, 0] = [D.nan, D.nan, D.nan] ∧
    (build [0, 0, 0]).probabilities = [D.nan, D.nan, D.nan] ∧
    (build [0, 0, 0]).buckets
      = [(2, 2, D.val 0), (1, 1, D.val 0), (0, 0, D.val 0)] ∧
    (build [0, 0, 0]).buckets.length = 3 := by
  refine ⟨?_, ?_, ?_, ?_⟩ <;>
    norm_num [build, create_buckets, normalize_weights, ddiv, initStacks,
      splitGo, pairLoop, pairLoopF, dlt, dadd, dsub, dneg]

/-- C8: the claim says the leftover-light drain triggers no diagnostic
output.  On weights `[1, 1, 1, 1, 6]` the pairing loop ends with the
light segment `(-1/5, 4)` still on the `small` stack; the drain turns it
into the degenerate self-bucket `(4, 4, 0)` without crashing, but it
also prints one `"Here"` line — the `cout << "Here"` in the drain
loop. -/
theorem drain_emits_here_line :
    (build [1, 1, 1, 1, 6]).output = ["Here"] ∧
    (build [1, 1, 1, 1, 6]).buckets
      = [(3, 4, D.val (1/10)), (2, 4, D.val (3/10)), (1, 4, D.val (1/2)),
         (0, 4, D.val (7/10)), (4, 4, D.val 0)] := by
  constructor <;>
    norm_num [build, create_buckets, normalize_weights, ddiv, initStacks,
      splitGo, pairLoop, pairLoopF, dlt, dadd, dsub, dneg]

/-- C2 (counterexample): the claim says the pairing loop repeats while
the light stack is non-empty.  On the probabilities of weights
`[1, 1, 1, 1, 6]` the loop terminates with the light stack still
holding the segment `(-1/5, 4)`, because the heavy stack is empty — the
code's guard is `!small.empty() && !large.empty()`. -/
theorem pairing_guard_counterexample :
    (pairLoop 5 0 (initStacks (normalize_weights [1, 1, 1, 1, 6])).1
        (initStacks (normalize_weights [1, 1, 1, 1, 6])).2 []).small
      = [(D.val (-1/5), 4)] ∧
    (pairLoop 5 0 (initStacks (normalize_weights [1, 1, 1, 1, 6])).1
        (initStacks (normalize_weights [1, 1, 1, 1, 6])).2 []).large = [] ∧
    (pairLoop 5 0 (initStacks (normalize_weights [1, 1, 1, 1, 6])).1
        (initStacks (normalize_weights [1, 1, 1, 1, 6])).2 []).small ≠ [] := by
  refine ⟨?_, ?_, ?_⟩ <;>
    norm_num [normalize_weights, ddiv, initStacks, splitGo, pairLoop,
      pairLoopF, dlt, dadd, dsub, dneg]

/-- C7: an empty weight vector produces exactly the degenerate bucket
`(0, 0, 0.0)`, and sampling the empty distribution returns 0 for every
draw in `[0, 1)` without any out-of-range access. -/
theorem empty_distribution_safe :
    (build []).buckets = [(0, 0, D.val 0)] ∧
    ∀ u : ℚ, 0 ≤ u → u < 1 → sample (build []) u = 0 := by
  have hb : (build []).buckets = [(0, 0, D.val 0)] := rfl
  refine ⟨hb, ?_⟩
  intro u _ _
  have hone : ∀ k : ℕ, (build []).buckets.getD k (0, 0, D.val 0)
      = (0, 0, D.val 0) := by
    intro k
    rw [hb]
    match k with
    | 0 => rfl
    | k + 1 => rfl
  simp only [sample, hone]
  split <;> rfl

/-- C5: in the table built from weights `[1, 0, 2]`, outcome 1 (the zero
weight) is never returned: its only appearance is as `outcomeA` of a
bucket whose threshold is 0, and no draw `u ≥ 0` is below 0. -/
theorem zero_weight_never_sampled :
    ∀ u : ℚ, 0 ≤ u → u < 1 → sample (build [1, 0, 2]) u ≠ 1 := by
  have hb : (build [1, 0, 2]).buckets
      = [(1, 2, D.val 0), (2, 2, D.val 0), (0, 0, D.val 0)] := by
    norm_num [build, create_buckets, normalize_weights, ddiv, initStacks,
      splitGo, pairLoop, pairLoopF, dlt, dadd, dsub, dneg]
  intro u h0 _
  have hth : ∀ k : ℕ, ((build [1, 0, 2]).buckets.getD k (0, 0, D.val 0)).2.2
      = D.val 0 := by
    intro k
    rw [hb]
    match k with
    | 0 => rfl
    | 1 => rfl
    | 2 => rfl
    | k + 3 => rfl
  have hB : ∀ k : ℕ, ((build [1, 0, 2]).buckets.getD k (0, 0, D.val 0)).2.1
      ≠ 1 := by
    intro k
    rw [hb]
    match k with
    | 0 => simp
    | 1 => simp
    | 2 => simp
    | k + 3 => simp [List.getD]
  have hdlt : dlt (D.val u) (D.val 0) = false := by
    simp only [dlt, decide_eq_false_iff_not]
    exact not_lt.mpr h0
  simp only [sample, hth, hdlt, Bool.false_eq_true, if_false]
  exact hB _

/-- C2 (amended): the pairing loop repeats while BOTH the light and the
heavy stacks are non-empty; each iteration pops light `s` and heavy `l`,
emits the bucket `(s.index, l.index, s.probability + i/N)`, computes
`left_over = s.probability + l.probability - i/N` and re-inserts
`(left_over, l.index)` into light if `left_over < 1/N`, else into heavy;
when either stack is empty the loop stops (possibly with light segments
remaining).  The counter `i` equals the number of buckets emitted so far
at every guard check, and the loop's final state closes the recorded
trace. -/
theorem pairing_loop_description :
    (∀ (N i : ℕ) (s l : Segment) (ss ls : List Segment) (bs : List Bucket),
      pairLoop N i (s :: ss) (l :: ls) bs =
        (if dlt (dsub (dadd s.1 l.1) (D.val ((i : ℚ) / (N : ℚ))))
            (D.val (1 / (N : ℚ))) then
          pairLoop N (i + 1)
            ((dsub (dadd s.1 l.1) (D.val ((i : ℚ) / (N : ℚ))), l.2) :: ss) ls
            (bs ++ [(s.2, l.2, dadd s.1 (D.val ((i : ℚ) / (N : ℚ))))])
        else
          pairLoop N (i + 1) ss
            ((dsub (dadd s.1 l.1) (D.val ((i : ℚ) / (N : ℚ))), l.2) :: ls)
            (bs ++ [(s.2, l.2, dadd s.1 (D.val ((i : ℚ) / (N : ℚ))))]))) ∧
    (∀ (N i : ℕ) (l : List Segment) (bs : List Bucket),
      pairLoop N i [] l bs = ⟨i, [], l, bs⟩) ∧
    (∀ (N i : ℕ) (s : List Segment) (bs : List Bucket),
      pairLoop N i s [] bs = ⟨i, s, [], bs⟩) ∧
    (∀ (N : ℕ) (s l : List Segment),
      ∀ st ∈ pairTrace N 0 s l [], st.i = st.buckets.length) ∧
    (∀ (N i : ℕ) (s l : List Segment) (bs : List Bucket),
      ∃ pre, pairTrace N i s l bs = pre ++ [pairLoop N i s l bs]) := by
  refine ⟨pairLoop_cons, ?_, ?_, ?_, ?_⟩
  · intro N i l bs
    exact pairLoopF_nil_small N _ i l bs
  · intro N i s bs
    exact pairLoopF_nil_large N _ i s bs
  · intro N s l st hst
    have := pairTraceF_counter N (s.length + l.length) 0 s l [] st hst
    simp only [List.length_nil] at this
    omega
  · intro N i s l bs
    exact pairTraceF_last N (s.length + l.length) i s l bs

/-- C9: sampling is a pure read: one call returns the result together
with the unchanged object, the result depends only on the draw and the
bucket table (objects with equal tables sample equally), and a repeated
call on the state left by the first call returns the same index. -/
theorem sample_pure_deterministic (d e : fast_discrete_distribution)
    (u : ℚ) (h : d.buckets = e.buckets) :
    sampleCall d u = (sample d u, d) ∧
    sample d u = sample e u ∧
    (sampleCall (sampleCall d u).2 u).1 = (sampleCall d u).1 := by
  refine ⟨rfl, ?_, rfl⟩
  simp only [sample, sampleIndex, h]

/-- C6: normalization divides every weight by the total: it keeps the
length and maps `w[i]` to `w[i] / sum(w)`; for strictly positive weights
the IEEE sum of the stored probabilities of the built distribution is
exactly 1, hence within `1e-9` of 1. -/
theorem normalize_weights_description (w : List ℚ)
    (_hnn : ∀ x ∈ w, 0 ≤ x) (hs : 0 < w.sum) :
    (normalize_weights w).length = w.length ∧
    normalize_weights w = w.map (fun x => D.val (x / w.sum)) ∧
    ((∀ x ∈ w, 0 < x) →
      ∃ q : ℚ, sumProbabilities (build w).probabilities = D.val q ∧
        |q - 1| ≤ 1 / 1000000000) := by
  have hs' : w.sum ≠ 0 := ne_of_gt hs
  refine ⟨normalize_weights_length w, normalize_weights_of_sum_ne_zero w hs', ?_⟩
  intro _
  refine ⟨1, ?_, by norm_num⟩
  have hp : (build w).probabilities = (w.map (fun x => x / w.sum)).map D.val := by
    show normalize_weights w = _
    rw [normalize_weights_of_sum_ne_zero w hs', List.map_map]
    rfl
  rw [hp, sumProbabilities, foldl_dadd_vals, sum_map_div, div_self hs',
    zero_add]

/-- C4: for a valid non-empty weight vector, the built table has exactly
one bucket per outcome and every bucket's two outcome indices are valid
indices in `[0, n)`. -/
theorem table_shape_and_bounds (w : List ℚ) (hw : w ≠ [])
    (_hnn : ∀ x ∈ w, 0 ≤ x) (_hs : 0 < w.sum) :
    (build w).buckets.length = w.length ∧
    ∀ b ∈ (build w).buckets, b.1 < w.length ∧ b.2.1 < w.length := by
  have hps : normalize_weights w ≠ [] := by
    intro hcon
    apply hw
    apply List.length_eq_zero.mp
    rw [← normalize_weights_length w, hcon]
    rfl
  have hlen : (build w).buckets.length = w.length := by
    show (create_buckets (normalize_weights w)).1.length = w.length
    rw [create_buckets_length _ hps, normalize_weights_length]
  refine ⟨hlen, ?_⟩
  intro b hbmem
  have := create_buckets_bound (normalize_weights w) hps b hbmem
  rwa [normalize_weights_length] at this

/-- C3: for a table built from valid weights, the sampler computes
`floor(n * u)` and clamps it to `n - 1` whenever it reaches `n` (the
`min` form below); for every draw in `[0, 1)` the clamp is idle, the
consulted bucket index is below `n`, and the returned outcome index is
strictly below `n`. -/
theorem sampler_in_range (w : List ℚ) (hw : w ≠ [])
    (_hnn : ∀ x ∈ w, 0 ≤ x) (_hs : 0 < w.sum) :
    (∀ u : ℚ, sampleIndex (build w) u
        = min (Int.floor ((w.length : ℚ) * u)).toNat (w.length - 1)) ∧
    (∀ u : ℚ, 0 ≤ u → u < 1 →
      sampleIndex (build w) u = (Int.floor ((w.length : ℚ) * u)).toNat ∧
      sampleIndex (build w) u < w.length ∧
      sample (build w) u < w.length) := by
  have hps : normalize_weights w ≠ [] := by
    intro hcon
    apply hw
    apply List.length_eq_zero.mp
    rw [← normalize_weights_length w, hcon]
    rfl
  have hlen : (build w).buckets.length = w.length := by
    show (create_buckets (normalize_weights w)).1.length = w.length
    rw [create_buckets_length _ hps, normalize_weights_length]
  have hn : 0 < w.length := List.length_pos.mpr hw
  constructor
  · intro u
    simp only [sampleIndex, hlen]
    split <;> omega
  · intro u h0 h1
    have hfl0 : 0 ≤ Int.floor ((w.length : ℚ) * u) :=
      Int.floor_nonneg.mpr (mul_nonneg (by positivity) h0)
    have hfln : Int.floor ((w.length : ℚ) * u) < (w.length : ℤ) := by
      apply Int.floor_lt.mpr
      push_cast
      calc (w.length : ℚ) * u < (w.length : ℚ) * 1 := by
            apply mul_lt_mul_of_pos_left h1
            exact_mod_cast hn
        _ = (w.length : ℚ) := mul_one _
    have hidx : (Int.floor ((w.length : ℚ) * u)).toNat < w.length := by omega
    have hsi : sampleIndex (build w) u
        = (Int.floor ((w.length : ℚ) * u)).toNat := by
      simp only [sampleIndex, hlen]
      rw [if_neg]
      omega
    refine ⟨hsi, by omega, ?_⟩
    have hk : sampleIndex (build w) u < (build w).buckets.length := by
      rw [hlen]
      omega
    simp only [sample]
    rw [List.getD_eq_getElem _ _ hk]
    have hmem := List.getElem_mem hk
    have hb := create_buckets_bound (normalize_weights w) hps _ hmem
    rw [normalize_weights_length] at hb
    split
    · exact hb.1
    · exact hb.2

/-- C10: the two work stacks fit one shared n-slot array growing from
opposite ends.  The split phase holds exactly one segment per processed
outcome (so at most `n`); at every guard check of the main loop the
combined stack size is at most `n` and the front slots `[0, |small|)`
never meet the back slots `[n - |large|, n)`; each iteration pops two
segments and pushes one, strictly decreasing the combined size by
exactly one. -/
theorem shared_array_stacks_bounded (ps : List D) (_hps : ps ≠ []) :
    ((initStacks ps).1.length + (initStacks ps).2.length = ps.length) ∧
    (∀ k : ℕ,
      (splitGo (D.val (1 / (ps.length : ℚ))) 0 (ps.take k) [] []).1.length
        + (splitGo (D.val (1 / (ps.length : ℚ))) 0 (ps.take k) [] []).2.length
        ≤ ps.length) ∧
    (∀ st ∈ pairTrace ps.length 0 (initStacks ps).1 (initStacks ps).2 [],
      st.small.length + st.large.length ≤ ps.length ∧
      Disjoint (Finset.range st.small.length)
        (Finset.Ico (ps.length - st.large.length) ps.length)) ∧
    List.Chain' (fun a b : LoopState =>
        a.small.length + a.large.length = b.small.length + b.large.length + 1)
      (pairTrace ps.length 0 (initStacks ps).1 (initStacks ps).2 []) := by
  have hsplit := splitGo_count (D.val (1 / (ps.length : ℚ))) ps 0 [] []
  simp only [List.length_nil] at hsplit
  have hinit : (initStacks ps).1.length + (initStacks ps).2.length
      = ps.length := by
    simp only [initStacks]
    omega
  refine ⟨hinit, ?_, ?_, ?_⟩
  · intro k
    have := splitGo_count (D.val (1 / (ps.length : ℚ))) (ps.take k) 0 [] []
    simp only [List.length_nil, List.length_take] at this
    omega
  · intro st hst
    have hle := pairTraceF_size_le ps.length
      ((initStacks ps).1.length + (initStacks ps).2.length) 0
      (initStacks ps).1 (initStacks ps).2 [] st hst
    have hb : st.small.length + st.large.length ≤ ps.length := by omega
    refine ⟨hb, ?_⟩
    rw [Finset.disjoint_left]
    intro a ha hamem
    rw [Finset.mem_range] at ha
    rw [Finset.mem_Ico] at hamem
    omega
  · exact pairTraceF_chain ps.length _ 0 (initStacks ps).1 (initStacks ps).2 []

/-! ### Witnesses -/

/-- Witness for C2: the counter/bucket-count invariant evaluated on the
final recorded state of the loop for the probabilities of `[1, 0, 2]`. -/
theorem pairing_loop_description_witness :
    (⟨1, [], [(D.val (2/3), 2), (D.val (1/3), 0)], [(1, 2, D.val 0)]⟩
        : LoopState).i
      = (⟨1, [], [(D.val (2/3), 2), (D.val (1/3), 0)], [(1, 2, D.val 0)]⟩
        : LoopState).buckets.length :=
  pairing_loop_description.2.2.2.1 3 [(D.val 0, 1)]
    [(D.val (2/3), 2), (D.val (1/3), 0)] _
    (by norm_num [pairTrace, pairTraceF, dlt, dadd, dsub, dneg])

/-- Witness for C3 at weights `[1, 0, 2]` and draw `1/2`. -/
theorem sampler_in_range_witness :
    (0 : ℚ) ≤ 1/2 ∧ (1 : ℚ)/2 < 1 ∧ sample (build [1, 0, 2]) (1/2) < 3 :=
  ⟨by norm_num, by norm_num,
    by simpa using ((sampler_in_range [1, 0, 2] (by simp) (by norm_num)
      (by norm_num)).2 (1/2) (by norm_num) (by norm_num)).2.2⟩

/-- Witness for C4 at weights `[1, 0, 2]`. -/
theorem table_shape_and_bounds_witness :
    (build [1, 0, 2]).buckets.length = 3 := by
  simpa using
    (table_shape_and_bounds [1, 0, 2] (by simp) (by norm_num) (by norm_num)).1

/-- Witness for C5 at draw `1/3`. -/
theorem zero_weight_never_sampled_witness :
    (0 : ℚ) ≤ 1/3 ∧ (1 : ℚ)/3 < 1 ∧ sample (build [1, 0, 2]) (1/3) ≠ 1 :=
  ⟨by norm_num, by norm_num,
    zero_weight_never_sampled (1/3) (by norm_num) (by norm_num)⟩

/-- Witness for C6 at weights `[1, 1, 2]`. -/
theorem normalize_weights_description_witness :
    (normalize_weights [1, 1, 2]).length = 3 ∧
    ∃ q : ℚ, sumProbabilities (build [1, 1, 2]).probabilities = D.val q ∧
      |q - 1| ≤ 1 / 1000000000 := by
  have h := normalize_weights_description [1, 1, 2] (by norm_num) (by norm_num)
  exact ⟨by simpa using h.1, h.2.2 (by norm_num)⟩

/-- Witness for C7 at draw `1/2`. -/
theorem empty_distribution_safe_witness : sample (build []) (1/2) = 0 :=
  empty_distribution_safe.2 (1/2) (by norm_num) (by norm_num)

/-- Witness for C9: a second object with the same bucket table but
different probability and output fields samples identically. -/
theorem sample_pure_deterministic_witness :
    sample (build [1, 1]) (1/2)
      = sample ⟨[], (build [1, 1]).buckets, []⟩ (1/2) :=
  (sample_pure_deterministic (build [1, 1])
    ⟨[], (build [1, 1]).buckets, []⟩ (1/2) rfl).2.1

/-- Witness for C10 at the probabilities `[1/4, 3/4]`. -/
theorem shared_array_stacks_bounded_witness :
    (initStacks [D.val (1/4), D.val (3/4)]).1.length
      + (initStacks [D.val (1/4), D.val (3/4)]).2.length = 2 := by
  simpa using
    (shared_array_stacks_bounded [D.val (1/4), D.val (3/4)] (by simp)).1
